import Mathlib

/-!
# Verification of the workbook/grid interchange engine

Shallow embedding of the spreadsheet interchange core of this repository
(unit codec, color codec, font resolution, style-string algebra, the two
style codecs, the document reader and the document writer) together with
proofs about the embedded definitions.

Modelling conventions:
* JavaScript strings are modelled as `List Char` (abbreviated `Str`).
* JavaScript numbers are modelled as exact rationals (`ℚ`); the rounding
  performed by IEEE-754 arithmetic on individual operations is outside the
  model.  `Math.round x` is `⌊x + 1/2⌋`, its exact semantics on the reals.
* `null`/`undefined` results are modelled with `Option`; where the source
  distinguishes the two JavaScript values they are modelled explicitly.
-/

abbrev Str := List Char

/-- JavaScript `String.prototype.trim`: drop whitespace from both ends. -/
def jsTrim (s : Str) : Str :=
  ((s.dropWhile Char.isWhitespace).reverse.dropWhile Char.isWhitespace).reverse

/-! ## Unit Codec

Source:
```js
const PX_PER_POINT = 4 / 3
const PT_PER_PX = 1 / PX_PER_POINT
function toFixedNumber(value, decimals = 2) {
  if (!Number.isFinite(value)) return null
  const factor = 10 ** decimals
  return Math.round(value * factor) / factor
}
function ptToPx(sizePt) { ... return toFixedNumber(sizePt * PX_PER_POINT) }
function pxToPt(sizePx) { ... return toFixedNumber(sizePx * PT_PER_PX) }
```
Every element of `ℚ` is finite, so the `Number.isFinite` guards (which
return `null` only on `NaN`/`±Infinity`) are vacuous in the model and the
functions are total here. -/

/-- `Math.round`: round half toward positive infinity.  (`Rat.floor` is
used so that the definition evaluates by kernel reduction; it agrees with
`⌊x + 1/2⌋`, see `jsRound_eq_floor`.) -/
def jsRound (x : ℚ) : ℤ := Rat.floor (x + 1/2)

theorem jsRound_eq_floor (x : ℚ) : jsRound x = ⌊x + 1/2⌋ := by
  rw [jsRound, Rat.floor_def', ← Rat.floor_def]

/-- `toFixedNumber(value, 2) = Math.round(value * 100) / 100`. -/
def toFixedNumber (value : ℚ) : ℚ := (jsRound (value * 100) : ℚ) / 100

def PX_PER_POINT : ℚ := 4 / 3

def PT_PER_PX : ℚ := 1 / PX_PER_POINT

def ptToPx (sizePt : ℚ) : ℚ := toFixedNumber (sizePt * PX_PER_POINT)

def pxToPt (sizePx : ℚ) : ℚ := toFixedNumber (sizePx * PT_PER_PX)

/-- Rounding to two decimals as claim C7 describes it: half **away from
zero**, `sign(v) * round_half_up(|v| * 100) / 100`.  Written from the
claim's words, to be compared with `toFixedNumber` from the source. -/
def specHalfAwayFixed (v : ℚ) : ℚ :=
  (if v < 0 then -1 else 1) * ((⌊|v| * 100 + 1/2⌋ : ℚ) / 100)

theorem jsRound_close (x : ℚ) : |((jsRound x : ℤ) : ℚ) - x| ≤ 1/2 := by
  have h1 : ((⌊x + 1/2⌋ : ℤ) : ℚ) ≤ x + 1/2 := Int.floor_le _
  have h2 : x + 1/2 - 1 < ((⌊x + 1/2⌋ : ℤ) : ℚ) := Int.sub_one_lt_floor _
  rw [jsRound_eq_floor, abs_le]
  constructor <;> linarith

theorem toFixedNumber_close (x : ℚ) : |toFixedNumber x - x| ≤ 1/200 := by
  have h := jsRound_close (x * 100)
  rw [abs_le] at h ⊢
  rw [toFixedNumber]
  constructor <;> [linarith; linarith]

/-- Any 2-decimal value (an integer divided by 100) is a fixed point of the
pixels→points∘points→pixels composite. -/
theorem roundtrip_fixed (n : ℤ) :
    pxToPt (ptToPx ((n : ℚ) / 100)) = (n : ℚ) / 100 := by
  have e1 : ((n : ℚ) / 100) * PX_PER_POINT * 100 + 1/2 = ((8 * n + 3 : ℤ) : ℚ) / (6 : ℕ) := by
    rw [PX_PER_POINT]; push_cast; ring
  have h1 : ptToPx ((n : ℚ) / 100) = (((8 * n + 3) / 6 : ℤ) : ℚ) / 100 := by
    rw [ptToPx, toFixedNumber, jsRound_eq_floor, e1, Rat.floor_intCast_div_natCast]
    norm_num
  set m : ℤ := (8 * n + 3) / 6 with hm
  have e2 : ((m : ℚ) / 100) * PT_PER_PX * 100 + 1/2 = ((3 * m + 2 : ℤ) : ℚ) / (4 : ℕ) := by
    rw [PT_PER_PX, PX_PER_POINT]; push_cast; ring
  have h2 : pxToPt ((m : ℚ) / 100) = (((3 * m + 2) / 4 : ℤ) : ℚ) / 100 := by
    rw [pxToPt, toFixedNumber, jsRound_eq_floor, e2, Rat.floor_intCast_div_natCast]
    norm_num
  have harith : (3 * m + 2) / 4 = n := by omega
  rw [h1, h2, harith]

theorem pxToPt_ptToPx_pxToPt (x : ℚ) :
    pxToPt (ptToPx (pxToPt x)) = pxToPt x := by
  have h : pxToPt x = ((jsRound (x * PT_PER_PX * 100) : ℤ) : ℚ) / 100 := rfl
  rw [h]
  exact roundtrip_fixed _

/-- **C1**: for every finite point size `p ≥ 0`, converting points→pixels
then pixels→points lands within `0.01` of `p`, and applying the conversion
pair twice more to the result does not increase the distance from `p`
(in fact the first result is already a fixed point of the pair). -/
theorem C1_unit_roundtrip_drift (p : ℚ) (_hp : 0 ≤ p) :
    |pxToPt (ptToPx p) - p| ≤ 1/100 ∧
      |pxToPt (ptToPx (pxToPt (ptToPx p))) - p| ≤ |pxToPt (ptToPx p) - p| ∧
      |pxToPt (ptToPx (pxToPt (ptToPx (pxToPt (ptToPx p))))) - p| ≤
        |pxToPt (ptToPx (pxToPt (ptToPx p))) - p| := by
  refine ⟨?_, ?_, ?_⟩
  · have h1 : |ptToPx p - p * PX_PER_POINT| ≤ 1/200 := toFixedNumber_close _
    have h2 : |pxToPt (ptToPx p) - ptToPx p * PT_PER_PX| ≤ 1/200 := toFixedNumber_close _
    rw [PX_PER_POINT] at h1
    rw [PT_PER_PX, PX_PER_POINT] at h2
    rw [abs_le] at h1 h2 ⊢
    norm_num at h2
    constructor <;> nlinarith [h1.1, h1.2, h2.1, h2.2]
  · rw [pxToPt_ptToPx_pxToPt]
  · rw [pxToPt_ptToPx_pxToPt, pxToPt_ptToPx_pxToPt]

/-- Witness for C1 at the concrete point size `p = 12`. -/
theorem C1_unit_roundtrip_drift_witness :
    0 ≤ (12 : ℚ) ∧
      (|pxToPt (ptToPx 12) - 12| ≤ 1/100 ∧
        |pxToPt (ptToPx (pxToPt (ptToPx 12))) - 12| ≤ |pxToPt (ptToPx 12) - 12| ∧
        |pxToPt (ptToPx (pxToPt (ptToPx (pxToPt (ptToPx 12))))) - 12| ≤
          |pxToPt (ptToPx (pxToPt (ptToPx 12))) - 12|) :=
  ⟨by norm_num, C1_unit_roundtrip_drift 12 (by norm_num)⟩

/-- **C7 counterexample**: at `v = -0.005`, the code (`Math.round`, which
rounds half toward `+∞`) yields `0`, while the claimed half-away-from-zero
formula yields `-0.01`; the claim fails for negative half-ties. -/
theorem C7_counterexample :
    toFixedNumber (-(1/200)) = 0 ∧ specHalfAwayFixed (-(1/200)) = -(1/100) ∧
      toFixedNumber (-(1/200)) ≠ specHalfAwayFixed (-(1/200)) := by
  have h1 : toFixedNumber (-(1/200)) = 0 := by
    rw [toFixedNumber, jsRound_eq_floor]
    norm_num
  have h2 : specHalfAwayFixed (-(1/200)) = -(1/100) := by
    rw [specHalfAwayFixed]
    rw [if_pos (by norm_num : -(1/200 : ℚ) < 0), abs_of_nonpos (by norm_num : -(1/200 : ℚ) ≤ 0)]
    norm_num
  exact ⟨h1, h2, by rw [h1, h2]; norm_num⟩

/-- **C7 (amended)**: `toFixedNumber` rounds `v * 100` half **toward
positive infinity** (`Math.round` semantics); this coincides with the
claimed half-away-from-zero rounding for every `v ≥ 0`, but not for
negative half-ties. -/
theorem C7_half_up_nonneg (v : ℚ) (h : 0 ≤ v) :
    toFixedNumber v = specHalfAwayFixed v := by
  rw [toFixedNumber, specHalfAwayFixed, abs_of_nonneg h, if_neg (not_lt.mpr h), one_mul,
    jsRound_eq_floor]

/-- Witness for the amended C7 at `v = 0.015` (a nonnegative half-tie). -/
theorem C7_half_up_nonneg_witness :
    0 ≤ (3/200 : ℚ) ∧ toFixedNumber (3/200) = specHalfAwayFixed (3/200) :=
  ⟨by norm_num, C7_half_up_nonneg (3/200) (by norm_num)⟩

/-! ## Color Codec (xlsx-object variant)

Source:
```js
function xlsxColorToCSS(color) {
  if (!color) return null
  const rgb = color.rgb || color.RGB
  if (!rgb) return null
  const hex = rgb.length === 8 ? rgb.slice(2) : rgb
  return `#${hex.slice(-6)}`
}
function cssColorToXlsx(color) {
  if (!color) return null
  let normalized = color.trim()
  if (normalized.startsWith('#')) normalized = normalized.slice(1)
  if (normalized.length === 3) {
    normalized = normalized.split('').map(ch => ch + ch).join('')
  }
  if (normalized.length !== 6) return null
  return { rgb: `FF${normalized.toUpperCase()}` }
}
```
A missing `rgb`/`RGB` field is modelled as the empty string (both are
falsy in the source's `color.rgb || color.RGB` chain). -/

/-- JavaScript `s.slice(-n)`: the last `min(n, length)` characters. -/
def takeLast (n : Nat) (l : Str) : Str := l.drop (l.length - n)

structure XlsxColor where
  rgb : Str := []
  RGB : Str := []
deriving DecidableEq

def xlsxColorToCSS (color : Option XlsxColor) : Option Str :=
  match color with
  | none => none
  | some c =>
    let rgb := if c.rgb.isEmpty then c.RGB else c.rgb
    if rgb.isEmpty then none
    else
      let hex := if rgb.length = 8 then rgb.drop 2 else rgb
      some ('#' :: takeLast 6 hex)

/-- `normalized.startsWith('#') ? normalized.slice(1) : normalized`. -/
def stripHash (s : Str) : Str := if s.head? = some '#' then s.tail else s

/-- The 3-digit-to-6-digit expansion step of `cssColorToXlsx`:
`split('').map(ch => ch + ch).join('')` applied when the length is 3. -/
def hexDigits6 (s : Str) : Str :=
  if s.length = 3 then (s.map (fun ch => [ch, ch])).flatten else s

def cssColorToXlsx (color : Str) : Option XlsxColor :=
  if color.isEmpty then none
  else
    let n := hexDigits6 (stripHash (jsTrim color))
    if n.length = 6 then some { rgb := 'F' :: 'F' :: n.map Char.toUpper } else none

/-- Hexadecimal digit (either case), as in a CSS hex color. -/
def isHexDigitCh (c : Char) : Bool :=
  c.isDigit || ('a' ≤ c && c ≤ 'f') || ('A' ≤ c && c ≤ 'F')

/-- A valid 3- or 6-digit CSS hex color: an optional leading `'#'`
followed by exactly 3 or exactly 6 hex digits (any letter case). -/
def ValidCssHex (s : Str) : Prop :=
  (∀ c ∈ stripHash s, isHexDigitCh c = true) ∧
    ((stripHash s).length = 3 ∨ (stripHash s).length = 6)

instance (s : Str) : Decidable (ValidCssHex s) := by
  unfold ValidCssHex; infer_instance

theorem not_whitespace_of_hexDigit {c : Char} (h : isHexDigitCh c = true) :
    c.isWhitespace = false := by
  by_contra hw
  rw [Bool.not_eq_false] at hw
  have hc : c = ' ' ∨ c = '\t' ∨ c = '\r' ∨ c = '\n' := by
    simp only [Char.isWhitespace, Bool.or_eq_true, decide_eq_true_eq] at hw
    tauto
  rcases hc with hc | hc | hc | hc <;> subst hc <;> simp [isHexDigitCh] at h

theorem jsTrim_eq_self {s : Str} (h : ∀ c ∈ s, c.isWhitespace = false) :
    jsTrim s = s := by
  have h1 : s.dropWhile Char.isWhitespace = s := by
    cases s with
    | nil => rfl
    | cons a l => rw [List.dropWhile_cons, if_neg (by simp [h a (List.mem_cons_self a l)])]
  rw [jsTrim, h1]
  have h2 : s.reverse.dropWhile Char.isWhitespace = s.reverse := by
    cases hr : s.reverse with
    | nil => rfl
    | cons a l =>
      have ha : a ∈ s := by
        rw [← List.mem_reverse, hr]; exact List.mem_cons_self a l
      rw [List.dropWhile_cons, if_neg (by simp [h a ha])]
  rw [h2, List.reverse_reverse]

theorem valid_trim_eq_self {s : Str} (hv : ValidCssHex s) : jsTrim s = s := by
  refine jsTrim_eq_self ?_
  intro c hc
  rcases hv with ⟨hhex, _⟩
  by_cases hs : s.head? = some '#'
  · cases s with
    | nil => cases hc
    | cons a l =>
      have ha : a = '#' := by simpa using hs
      rcases List.mem_cons.mp hc with rfl | hcl
      · subst ha; decide
      · exact not_whitespace_of_hexDigit (hhex c (by simpa [stripHash, hs] using hcl))
  · exact not_whitespace_of_hexDigit (hhex c (by simpa [stripHash, hs] using hc))

theorem hexDigits6_length {s : Str} (hv : s.length = 3 ∨ s.length = 6) :
    (hexDigits6 s).length = 6 := by
  rcases hv with h3 | h6
  · obtain ⟨a, b, c, rfl⟩ := List.length_eq_three.mp h3
    simp [hexDigits6]
  · rw [hexDigits6, if_neg (by omega)]
    exact h6

/-- **C2**: for every valid 3- or 6-digit CSS hex color `h`, the composite
`xlsxColorToCSS (cssColorToXlsx h)` yields the 6-digit canonical form of
`h`: a `'#'` followed by the six RGB hex digits of `h` (a 3-digit input
expanded by doubling each digit), uppercased — i.e. equal to `h` up to
letter case and 3-digit/6-digit length normalization. -/
theorem xlsxColorToCSS_ff (d : Str) (hd : d.length = 6) :
    xlsxColorToCSS (some { rgb := 'F' :: 'F' :: d, RGB := [] }) = some ('#' :: d) := by
  rw [xlsxColorToCSS]
  simp only [List.isEmpty_cons, List.length_cons, hd]
  norm_num [takeLast, hd]

theorem C2_color_roundtrip (h : Str) (hv : ValidCssHex h) :
    xlsxColorToCSS (cssColorToXlsx h) =
      some ('#' :: (hexDigits6 (stripHash h)).map Char.toUpper) := by
  have hne : h ≠ [] := by
    intro he
    subst he
    rcases hv.2 with h3 | h3 <;> simp [stripHash] at h3
  have hlen6 : (hexDigits6 (stripHash h)).length = 6 := hexDigits6_length hv.2
  have hcx : cssColorToXlsx h =
      some { rgb := 'F' :: 'F' :: (hexDigits6 (stripHash h)).map Char.toUpper, RGB := [] } := by
    rw [cssColorToXlsx, if_neg (by simpa [List.isEmpty_iff] using hne), valid_trim_eq_self hv]
    rw [if_pos hlen6]
  rw [hcx, xlsxColorToCSS_ff _ (by rw [List.length_map]; exact hlen6)]

/-- Witness for C2 at the concrete 3-digit color `"#1aB"`. -/
theorem C2_color_roundtrip_witness :
    ValidCssHex ['#', '1', 'a', 'B'] ∧
      xlsxColorToCSS (cssColorToXlsx ['#', '1', 'a', 'B']) =
        some ('#' :: (hexDigits6 (stripHash ['#', '1', 'a', 'B'])).map Char.toUpper) :=
  ⟨by decide, C2_color_roundtrip ['#', '1', 'a', 'B'] (by decide)⟩

/-! ## Style String Algebra

Source:
```js
function parseStyleString(styleString = '') {
  return styleString
    .split(';')
    .map(part => part.trim())
    .filter(Boolean)
    .reduce((acc, part) => {
      const [prop, value] = part.split(':').map(p => p && p.trim())
      if (prop && value) acc[prop] = value
      return acc
    }, {})
}
function mergeStyleStrings(existing = '', updates = {}) {
  const merged = { ...parseStyleString(existing) }
  Object.entries(updates).forEach(([key, value]) => { merged[key] = value })
  return Object.entries(merged).map(([k, v]) => `${k}: ${v}`).join('; ')
}
```
A JavaScript object with string keys is modelled as an association list in
insertion order (`PropMap`); `acc[prop] = value` updates an existing key in
place (keeping its position) and otherwise appends, exactly as JavaScript
object property order behaves for non-integer-like keys.  The destructuring
`[prop, value] = part.split(':')` takes the first two pieces of the split
(`undefined` for a missing piece is falsy, like the empty string after the
`p && p.trim()` map). -/

abbrev PropMap := List (Str × Str)

/-- `acc[key] = value` on a JavaScript object. -/
def insertProp (m : PropMap) (k v : Str) : PropMap :=
  if m.any (fun p => p.1 == k) then
    m.map (fun p => if p.1 = k then (k, v) else p)
  else m ++ [(k, v)]

/-- `styleString.split(';').map(part => part.trim()).filter(Boolean)`. -/
def styleSegments (styleString : Str) : List Str :=
  ((styleString.splitOn ';').map jsTrim).filter (fun s => !s.isEmpty)

/-- `prop` of a segment: first piece of the `':'`-split, trimmed. -/
def segProp (part : Str) : Str := jsTrim ((part.splitOn ':').getD 0 [])

/-- `value` of a segment: second piece of the `':'`-split, trimmed
(`[]` when the split has fewer than two pieces, i.e. `undefined`). -/
def segValue (part : Str) : Str := jsTrim ((part.splitOn ':').getD 1 [])

/-- Body of the `reduce` in `parseStyleString`. -/
def parseStep (acc : PropMap) (part : Str) : PropMap :=
  let prop := segProp part
  let value := segValue part
  if prop.isEmpty || value.isEmpty then acc else insertProp acc prop value

def parseStyleString (styleString : Str) : PropMap :=
  (styleSegments styleString).foldl parseStep []

/-- `` `${k}: ${v}` `` for one entry. -/
def propToken (kv : Str × Str) : Str := kv.1 ++ ':' :: ' ' :: kv.2

/-- `Object.entries(m).map(([k, v]) => `${k}: ${v}`).join('; ')`. -/
def serializeProps (m : PropMap) : Str :=
  List.intercalate [';', ' '] (m.map propToken)

def mergeStyleStrings (existing : Str) (updates : PropMap) : Str :=
  serializeProps
    (updates.foldl (fun m kv => insertProp m kv.1 kv.2) (parseStyleString existing))

/-! ### Well-formedness of property maps

`parse(serialize(m)) = m` cannot hold for arbitrary maps (a value
containing `':'` or `';'` is cut apart again by the parser); it holds for
maps whose keys and values are nonempty, carry no surrounding whitespace
and contain no `':'`/`';'` — which is exactly what `parseStyleString`
itself produces. -/

/-- The string neither starts nor ends with whitespace. -/
def NoWsEnds (s : Str) : Prop :=
  s.head?.all (fun c => !c.isWhitespace) = true ∧
    s.getLast?.all (fun c => !c.isWhitespace) = true

instance (s : Str) : Decidable (NoWsEnds s) := by
  unfold NoWsEnds; infer_instance

def WFEntry (kv : Str × Str) : Prop :=
  kv.1 ≠ [] ∧ kv.2 ≠ [] ∧ NoWsEnds kv.1 ∧ NoWsEnds kv.2 ∧
    ':' ∉ kv.1 ∧ ':' ∉ kv.2 ∧ ';' ∉ kv.1 ∧ ';' ∉ kv.2

instance (kv : Str × Str) : Decidable (WFEntry kv) := by
  unfold WFEntry; infer_instance

def WFMap (m : PropMap) : Prop :=
  (∀ kv ∈ m, WFEntry kv) ∧ (m.map Prod.fst).Nodup

instance (m : PropMap) : Decidable (WFMap m) := by
  unfold WFMap; infer_instance

theorem dropWhile_head?_false {p : Char → Bool} {l : Str} {c : Char}
    (h : (l.dropWhile p).head? = some c) : p c = false := by
  induction l with
  | nil => simp at h
  | cons a t ih =>
    rw [List.dropWhile_cons] at h
    by_cases hpa : p a = true
    · rw [if_pos hpa] at h; exact ih h
    · rw [if_neg hpa] at h
      simp only [List.head?_cons, Option.some.injEq] at h
      subst h
      revert hpa; cases p a <;> simp

theorem dropWhile_getLast? {p : Char → Bool} {l : Str}
    (h : l.dropWhile p ≠ []) : (l.dropWhile p).getLast? = l.getLast? := by
  induction l with
  | nil => simp [List.dropWhile] at h
  | cons a t ih =>
    rw [List.dropWhile_cons]
    by_cases hpa : p a = true
    · rw [List.dropWhile_cons, if_pos hpa] at h
      rw [if_pos hpa, ih h]
      cases t with
      | nil => simp [List.dropWhile] at h
      | cons b t' => rw [List.getLast?_cons_cons]
    · rw [if_neg hpa]

/-- The result of a trim neither starts nor ends with whitespace. -/
theorem jsTrim_noWsEnds (s : Str) : NoWsEnds (jsTrim s) := by
  rw [jsTrim]
  set Y : Str := (s.dropWhile Char.isWhitespace).reverse with hY
  set X : Str := Y.dropWhile Char.isWhitespace with hX
  constructor
  · rw [List.head?_reverse]
    cases hXl : X.getLast? with
    | none => rfl
    | some c =>
      have hXne : X ≠ [] := by intro he; rw [he] at hXl; cases hXl
      rw [hX, dropWhile_getLast? (hX ▸ hXne), hY, List.getLast?_reverse] at hXl
      have := dropWhile_head?_false hXl
      simp [this]
  · rw [List.getLast?_reverse]
    cases hXh : X.head? with
    | none => rfl
    | some c =>
      have := dropWhile_head?_false (hX ▸ hXh)
      simp [this]

theorem jsTrim_eq_self_of_noWsEnds {s : Str} (h : NoWsEnds s) : jsTrim s = s := by
  obtain ⟨h1, h2⟩ := h
  have hd : s.dropWhile Char.isWhitespace = s := by
    cases s with
    | nil => rfl
    | cons a t =>
      rw [List.head?_cons] at h1
      rw [List.dropWhile_cons, if_neg (by simp at h1; simp [h1])]
  rw [jsTrim, hd]
  have hr : s.reverse.dropWhile Char.isWhitespace = s.reverse := by
    cases hrv : s.reverse with
    | nil => rfl
    | cons a t =>
      have ha : s.getLast? = some a := by rw [← List.head?_reverse, hrv, List.head?_cons]
      rw [ha] at h2
      rw [List.dropWhile_cons, if_neg (by simp at h2; simp [h2])]
  rw [hr, List.reverse_reverse]

/-- A leading space is removed by trimming. -/
theorem jsTrim_cons_space (l : Str) : jsTrim (' ' :: l) = jsTrim l := by
  rw [jsTrim, jsTrim, List.dropWhile_cons, if_pos (by decide)]

/-! ### Splitting lemmas -/

theorem splitOn_of_not_mem {l : Str} {c : Char} (h : c ∉ l) : l.splitOn c = [l] :=
  List.splitOnP_eq_single _ _ (fun x hx hxc => h ((beq_iff_eq.mp hxc : x = c) ▸ hx))

theorem splitOn_append_sep {l : Str} {c : Char} (h : c ∉ l) (r : Str) :
    (l ++ c :: r).splitOn c = l :: r.splitOn c :=
  List.splitOnP_first _ _ (fun x hx hxc => h ((beq_iff_eq.mp hxc : x = c) ▸ hx)) c (by simp) r

theorem splitOn_cons_ne {a c : Char} (h : a ≠ c) (l : Str) :
    (a :: l).splitOn c = (l.splitOn c).modifyHead (a :: ·) := by
  show (a :: l).splitOnP (· == c) = _
  rw [List.splitOnP_cons, if_neg (by simp [h])]
  rfl

theorem intercalate_cons₂ (sep x y : Str) (t : List Str) :
    List.intercalate sep (x :: y :: t) = x ++ sep ++ List.intercalate sep (y :: t) := by
  simp [List.intercalate, List.intersperse_cons_cons]

/-- Splitting a `"; "`-joined list back apart on `';'`: the first token is
unchanged, later tokens keep the leading space of the separator. -/
theorem splitOn_serialize :
    ∀ (ts : List Str) (t : Str), ';' ∉ t → (∀ u ∈ ts, ';' ∉ u) →
      (List.intercalate [';', ' '] (t :: ts)).splitOn ';' = t :: ts.map (' ' :: ·) := by
  intro ts
  induction ts with
  | nil =>
    intro t ht _
    have h1 : List.intercalate [';', ' '] [t] = t := by simp [List.intercalate]
    rw [h1, splitOn_of_not_mem ht]
    rfl
  | cons u us ih =>
    intro t ht hts
    rw [intercalate_cons₂, List.append_assoc]
    rw [show ([';', ' '] : Str) ++ List.intercalate [';', ' '] (u :: us) =
        ';' :: ' ' :: List.intercalate [';', ' '] (u :: us) from rfl]
    rw [splitOn_append_sep ht, splitOn_cons_ne (by decide)]
    rw [ih u (hts u (by simp)) (fun w hw => hts w (by simp [hw]))]
    rfl

theorem not_mem_of_mem_splitOn {c : Char} :
    ∀ {l p : Str}, p ∈ l.splitOn c → c ∉ p := by
  intro l
  induction l with
  | nil =>
    intro p hp
    simp only [List.splitOn_nil, List.mem_singleton] at hp
    subst hp
    exact List.not_mem_nil c
  | cons a t ih =>
    intro p hp
    by_cases hac : a = c
    · subst hac
      rw [show (a :: t).splitOn a = [] :: t.splitOn a from by
            show (a :: t).splitOnP (· == a) = _
            rw [List.splitOnP_cons, if_pos (by simp)]
            rfl] at hp
      rcases List.mem_cons.mp hp with rfl | hp'
      · exact List.not_mem_nil a
      · exact ih hp'
    · rw [splitOn_cons_ne hac] at hp
      cases hsp : t.splitOn c with
      | nil => exact absurd hsp (List.splitOnP_ne_nil _ t)
      | cons h rest =>
        rw [hsp, List.modifyHead_cons] at hp
        rcases List.mem_cons.mp hp with rfl | hp'
        · intro hmem
          rcases List.mem_cons.mp hmem with hce | hch
          · exact hac hce.symm
          · exact ih (hsp ▸ List.mem_cons_self h rest) hch
        · exact ih (hsp ▸ List.mem_cons.mpr (Or.inr hp'))

theorem mem_of_mem_splitOn {c : Char} :
    ∀ {l p : Str}, p ∈ l.splitOn c → ∀ x ∈ p, x ∈ l := by
  intro l
  induction l with
  | nil =>
    intro p hp
    simp only [List.splitOn_nil, List.mem_singleton] at hp
    subst hp
    intro x hx
    exact absurd hx (List.not_mem_nil x)
  | cons a t ih =>
    intro p hp x hx
    by_cases hac : a = c
    · subst hac
      rw [show (a :: t).splitOn a = [] :: t.splitOn a from by
            show (a :: t).splitOnP (· == a) = _
            rw [List.splitOnP_cons, if_pos (by simp)]
            rfl] at hp
      rcases List.mem_cons.mp hp with rfl | hp'
      · exact absurd hx (List.not_mem_nil x)
      · exact List.mem_cons.mpr (Or.inr (ih hp' x hx))
    · rw [splitOn_cons_ne hac] at hp
      cases hsp : t.splitOn c with
      | nil => exact absurd hsp (List.splitOnP_ne_nil _ t)
      | cons h rest =>
        rw [hsp, List.modifyHead_cons] at hp
        rcases List.mem_cons.mp hp with rfl | hp'
        · rcases List.mem_cons.mp hx with rfl | hxh
          · exact List.mem_cons_self x t
          · exact List.mem_cons.mpr (Or.inr (ih (hsp ▸ List.mem_cons_self h rest) x hxh))
        · exact List.mem_cons.mpr
            (Or.inr (ih (hsp ▸ List.mem_cons.mpr (Or.inr hp')) x hx))

theorem mem_of_mem_jsTrim {s : Str} {x : Char} (h : x ∈ jsTrim s) : x ∈ s := by
  rw [jsTrim, List.mem_reverse] at h
  have h1 : x ∈ (s.dropWhile Char.isWhitespace).reverse :=
    (List.dropWhile_suffix _).subset h
  rw [List.mem_reverse] at h1
  exact (List.dropWhile_suffix _).subset h1

theorem getD_mem_of_ne {l : List Str} {n : Nat} (h : l.getD n [] ≠ []) :
    l.getD n [] ∈ l := by
  by_cases hn : n < l.length
  · rw [List.getD_eq_getElem l [] hn]
    exact List.getElem_mem hn
  · rw [List.getD_eq_default l [] (le_of_not_lt hn)] at h
    exact absurd rfl h

/-! ### Serialization round-trip -/

theorem getLast?_cons_of_ne_nil {a : Char} {l : Str} (h : l ≠ []) :
    (a :: l).getLast? = l.getLast? := by
  cases l with
  | nil => exact absurd rfl h
  | cons b t => rw [List.getLast?_cons_cons]

theorem propToken_ne_nil (kv : Str × Str) : propToken kv ≠ [] := by
  simp [propToken]

theorem propToken_no_semi {kv : Str × Str} (h : WFEntry kv) : ';' ∉ propToken kv := by
  obtain ⟨_, _, _, _, _, _, hs1, hs2⟩ := h
  intro hmem
  rcases List.mem_append.mp hmem with h1 | h2
  · exact hs1 h1
  · rcases List.mem_cons.mp h2 with hc | h3
    · exact absurd hc (by decide)
    · rcases List.mem_cons.mp h3 with hc | h4
      · exact absurd hc (by decide)
      · exact hs2 h4

theorem jsTrim_propToken {kv : Str × Str} (h : WFEntry kv) :
    jsTrim (propToken kv) = propToken kv := by
  apply jsTrim_eq_self_of_noWsEnds
  obtain ⟨hk, hv, ⟨hk1, hk2⟩, ⟨hv1, hv2⟩, _⟩ := h
  constructor
  · rw [propToken, List.head?_append_of_ne_nil _ hk]
    exact hk1
  · rw [propToken, List.getLast?_append_of_ne_nil _ (by simp),
      getLast?_cons_of_ne_nil (by simp), getLast?_cons_of_ne_nil hv]
    exact hv2

theorem styleSegments_serialize (m : PropMap) (hwf : ∀ kv ∈ m, WFEntry kv) :
    styleSegments (serializeProps m) = m.map propToken := by
  cases m with
  | nil => rfl
  | cons kv rest =>
    rw [serializeProps, List.map_cons, styleSegments,
      splitOn_serialize (rest.map propToken) (propToken kv)
        (propToken_no_semi (hwf kv (by simp)))
        (by
          intro u hu
          obtain ⟨kv', hkv', rfl⟩ := List.mem_map.mp hu
          exact propToken_no_semi (hwf kv' (by simp [hkv'])))]
    rw [List.map_cons, jsTrim_propToken (hwf kv (by simp))]
    have htail : ((rest.map propToken).map (' ' :: ·)).map jsTrim = rest.map propToken := by
      rw [List.map_map]
      have : ∀ u ∈ rest.map propToken, jsTrim (' ' :: u) = u := by
        intro u hu
        obtain ⟨kv', hkv', rfl⟩ := List.mem_map.mp hu
        rw [jsTrim_cons_space, jsTrim_propToken (hwf kv' (by simp [hkv']))]
      calc (rest.map propToken).map (jsTrim ∘ (' ' :: ·))
          = (rest.map propToken).map id := List.map_congr_left (fun u hu => this u hu)
        _ = rest.map propToken := List.map_id _
    rw [htail]
    apply List.filter_eq_self.mpr
    intro a ha
    have hane : a ≠ [] := by
      rcases List.mem_cons.mp ha with rfl | ha'
      · exact propToken_ne_nil kv
      · obtain ⟨kv', _, rfl⟩ := List.mem_map.mp ha'
        exact propToken_ne_nil kv'
    simp [List.isEmpty_iff, hane]

theorem splitOn_propToken {kv : Str × Str} (h : WFEntry kv) :
    (propToken kv).splitOn ':' = [kv.1, ' ' :: kv.2] := by
  obtain ⟨_, _, _, _, hc1, hc2, _, _⟩ := h
  rw [propToken, splitOn_append_sep hc1,
    splitOn_of_not_mem (by
      intro hmem
      rcases List.mem_cons.mp hmem with hc | h4
      · exact absurd hc (by decide)
      · exact hc2 h4)]

theorem segProp_propToken {kv : Str × Str} (h : WFEntry kv) :
    segProp (propToken kv) = kv.1 := by
  rw [segProp, splitOn_propToken h]
  exact jsTrim_eq_self_of_noWsEnds h.2.2.1

theorem segValue_propToken {kv : Str × Str} (h : WFEntry kv) :
    segValue (propToken kv) = kv.2 := by
  rw [segValue, splitOn_propToken h]
  show jsTrim (' ' :: kv.2) = kv.2
  rw [jsTrim_cons_space]
  exact jsTrim_eq_self_of_noWsEnds h.2.2.2.1

theorem parseStep_propToken (acc : PropMap) {kv : Str × Str} (h : WFEntry kv) :
    parseStep acc (propToken kv) = insertProp acc kv.1 kv.2 := by
  rw [parseStep]
  simp only [segProp_propToken h, segValue_propToken h]
  rw [if_neg (by simp [List.isEmpty_iff, h.1, h.2.1])]

theorem foldl_insertProp_fresh :
    ∀ (l : PropMap) (acc : PropMap),
      ((l.map Prod.fst).Nodup) →
      (∀ kv ∈ l, ∀ p ∈ acc, p.1 ≠ kv.1) →
      l.foldl (fun a kv => insertProp a kv.1 kv.2) acc = acc ++ l := by
  intro l
  induction l with
  | nil => intro acc _ _; simp
  | cons kv rest ih =>
    intro acc hnd hfresh
    rw [List.foldl_cons]
    have hKnotin : ¬acc.any (fun p => p.1 == kv.1) = true := by
      simp only [List.any_eq_true]
      rintro ⟨p, hp, hpk⟩
      exact hfresh kv (by simp) p hp (beq_iff_eq.mp hpk)
    rw [show insertProp acc kv.1 kv.2 = acc ++ [kv] from by
      rw [insertProp, if_neg hKnotin]]
    rw [List.map_cons, List.nodup_cons] at hnd
    rw [ih (acc ++ [kv]) hnd.2 ?_]
    · rw [List.append_assoc]; rfl
    · intro kv' hkv' p hp
      rcases List.mem_append.mp hp with hpa | hpk
      · exact hfresh kv' (by simp [hkv']) p hpa
      · rw [List.mem_singleton.mp hpk]
        intro he
        exact hnd.1 (he ▸ List.mem_map.mpr ⟨kv', hkv', rfl⟩)

/-- `parse(serialize(m)) = m` for a well-formed map: the core of the
amended claim C3. -/
theorem parse_serialize_of_wf {m : PropMap} (hwf : WFMap m) :
    parseStyleString (serializeProps m) = m := by
  rw [parseStyleString, styleSegments_serialize m hwf.1]
  have hfold : ∀ (l : PropMap) (acc : PropMap), (∀ kv ∈ l, WFEntry kv) →
      (l.map propToken).foldl parseStep acc =
        l.foldl (fun a kv => insertProp a kv.1 kv.2) acc := by
    intro l
    induction l with
    | nil => intro acc _; rfl
    | cons kv rest ih =>
      intro acc hw
      rw [List.map_cons, List.foldl_cons, List.foldl_cons,
        parseStep_propToken acc (hw kv (by simp)), ih _ (fun k hk => hw k (by simp [hk]))]
  rw [hfold m [] hwf.1, foldl_insertProp_fresh m [] hwf.2 (by simp)]
  rfl

/-! ### Parse outputs are well-formed -/

theorem insertProp_entries {m : PropMap} {k v : Str} (kv' : Str × Str)
    (h : kv' ∈ insertProp m k v) : kv' ∈ m ∨ kv' = (k, v) := by
  rw [insertProp] at h
  split_ifs at h with hany
  · obtain ⟨p, hp, hpe⟩ := List.mem_map.mp h
    by_cases hpk : p.1 = k
    · rw [if_pos hpk] at hpe
      exact Or.inr hpe.symm
    · rw [if_neg hpk] at hpe
      exact Or.inl (hpe ▸ hp)
  · rcases List.mem_append.mp h with h1 | h2
    · exact Or.inl h1
    · exact Or.inr (List.mem_singleton.mp h2)

theorem insertProp_nodup {m : PropMap} {k v : Str}
    (h : (m.map Prod.fst).Nodup) : ((insertProp m k v).map Prod.fst).Nodup := by
  rw [insertProp]
  split_ifs with hany
  · have heq : (m.map (fun p => if p.1 = k then (k, v) else p)).map Prod.fst =
        m.map Prod.fst := by
      rw [List.map_map]
      apply List.map_congr_left
      intro p _
      by_cases hpk : p.1 = k <;> simp [hpk]
    rw [heq]
    exact h
  · rw [List.map_append]
    have hk : k ∉ m.map Prod.fst := by
      intro hkm
      obtain ⟨p, hp, hpe⟩ := List.mem_map.mp hkm
      exact hany (List.any_eq_true.mpr ⟨p, hp, by simp [hpe]⟩)
    simp [List.nodup_append, h, hk, fun a (ha : a ∈ m.map Prod.fst) (he : a = k) =>
      hk (he ▸ ha)]

theorem no_semi_of_mem_styleSegments {s part : Str} (h : part ∈ styleSegments s) :
    ';' ∉ part := by
  rw [styleSegments] at h
  have h1 := List.mem_of_mem_filter h
  obtain ⟨q, hq, rfl⟩ := List.mem_map.mp h1
  intro hmem
  exact not_mem_of_mem_splitOn hq (mem_of_mem_jsTrim hmem)

theorem WFEntry_of_segments {s part : Str} (hpart : part ∈ styleSegments s)
    (hp : segProp part ≠ []) (hv : segValue part ≠ []) :
    WFEntry (segProp part, segValue part) := by
  have hsemi : ';' ∉ part := no_semi_of_mem_styleSegments hpart
  have hp0 : (part.splitOn ':').getD 0 [] ≠ [] := by
    intro he
    exact hp (by rw [segProp, he]; rfl)
  have hv0 : (part.splitOn ':').getD 1 [] ≠ [] := by
    intro he
    exact hv (by rw [segValue, he]; rfl)
  have hpmem := getD_mem_of_ne hp0
  have hvmem := getD_mem_of_ne hv0
  refine ⟨hp, hv, jsTrim_noWsEnds _, jsTrim_noWsEnds _, ?_, ?_, ?_, ?_⟩
  · intro hmem
    exact not_mem_of_mem_splitOn hpmem (mem_of_mem_jsTrim hmem)
  · intro hmem
    exact not_mem_of_mem_splitOn hvmem (mem_of_mem_jsTrim hmem)
  · intro hmem
    exact hsemi (mem_of_mem_splitOn hpmem ';' (mem_of_mem_jsTrim hmem))
  · intro hmem
    exact hsemi (mem_of_mem_splitOn hvmem ';' (mem_of_mem_jsTrim hmem))

/-- Every map produced by `parseStyleString` is well-formed: its entries
are trimmed, nonempty, `':'`/`';'`-free, and its keys are distinct. -/
theorem parseStyleString_wf (s : Str) : WFMap (parseStyleString s) := by
  rw [parseStyleString]
  have main : ∀ (parts : List Str) (acc : PropMap),
      (∀ p ∈ parts, p ∈ styleSegments s) → WFMap acc →
      WFMap (parts.foldl parseStep acc) := by
    intro parts
    induction parts with
    | nil => intro acc _ h; exact h
    | cons part rest ih =>
      intro acc hm hacc
      rw [List.foldl_cons]
      refine ih _ (fun p hp => hm p (by simp [hp])) ?_
      rw [parseStep]
      split_ifs with hguard
      · exact hacc
      · have hne : segProp part ≠ [] ∧ segValue part ≠ [] := by
          rw [Bool.or_eq_true] at hguard
          push_neg at hguard
          constructor
          · intro he
            exact hguard.1 (by rw [he]; rfl)
          · intro he
            exact hguard.2 (by rw [he]; rfl)
        have hwfe := WFEntry_of_segments (hm part (by simp)) hne.1 hne.2
        constructor
        · intro kv hkv
          rcases insertProp_entries kv hkv with h | h
          · exact hacc.1 kv h
          · rw [h]; exact hwfe
        · exact insertProp_nodup hacc.2
  exact main _ [] (fun p hp => hp) ⟨by simp, by simp⟩

theorem foldl_insert_wf {u : PropMap} (hu : ∀ kv ∈ u, WFEntry kv) :
    ∀ {acc : PropMap}, WFMap acc →
      WFMap (u.foldl (fun m kv => insertProp m kv.1 kv.2) acc) := by
  induction u with
  | nil => intro acc hacc; exact hacc
  | cons kv rest ih =>
    intro acc hacc
    rw [List.foldl_cons]
    refine ih (fun k hk => hu k (by simp [hk])) ?_
    constructor
    · intro p hp
      rcases insertProp_entries p hp with h | h
      · exact hacc.1 p h
      · rw [h]
        exact hu kv (by simp)
    · exact insertProp_nodup hacc.2

/-- **C3 counterexample**: the map `{a ↦ "b:c"}` serializes to `"a: b:c"`,
which re-parses to `{a ↦ "b"}` (the parser cuts the value at the second
colon), so `parse(serialize(m)) = m` fails for arbitrary property maps. -/
theorem C3_counterexample :
    parseStyleString (serializeProps [(['a'], ['b', ':', 'c'])]) = [(['a'], ['b'])] ∧
      parseStyleString (serializeProps [(['a'], ['b', ':', 'c'])]) ≠
        [(['a'], ['b', ':', 'c'])] := by
  constructor
  · decide
  · decide

/-- **C3 (amended)**: `parse(serialize(m)) = m` holds for every map whose
entries are nonempty, carry no surrounding whitespace and contain no
`':'`/`';'`, with distinct keys — in particular for every map produced by
`parseStyleString`.  Consequently re-parsing the output of a merge with
such updates yields exactly the merged mapping, and `merge(s, {})` returns
a string that parses to the same map as `parse(s)` for **every** string
`s`. -/
theorem C3_parse_serialize :
    (∀ m : PropMap, WFMap m → parseStyleString (serializeProps m) = m) ∧
      (∀ (s : Str) (u : PropMap), (∀ kv ∈ u, WFEntry kv) →
        parseStyleString (mergeStyleStrings s u) =
          u.foldl (fun acc kv => insertProp acc kv.1 kv.2) (parseStyleString s)) ∧
      (∀ s : Str, parseStyleString (mergeStyleStrings s []) = parseStyleString s) := by
  refine ⟨fun m h => parse_serialize_of_wf h, fun s u hu => ?_, fun s => ?_⟩
  · rw [mergeStyleStrings]
    exact parse_serialize_of_wf (foldl_insert_wf hu (parseStyleString_wf s))
  · rw [mergeStyleStrings, List.foldl_nil]
    exact parse_serialize_of_wf (parseStyleString_wf s)

/-- Witness for the amended C3: a concrete well-formed map round-trips, and
a concrete merge re-parses to the merged mapping. -/
theorem C3_parse_serialize_witness :
    WFMap [(['a'], ['r', 'e', 'd'])] ∧
      parseStyleString (serializeProps [(['a'], ['r', 'e', 'd'])]) =
        [(['a'], ['r', 'e', 'd'])] ∧
      parseStyleString (mergeStyleStrings ['a', ':', ' ', 'x'] []) =
        parseStyleString ['a', ':', ' ', 'x'] :=
  ⟨by decide, C3_parse_serialize.1 _ (by decide), C3_parse_serialize.2.2 _⟩

/-! ### C9: what exactly does the segment split yield?

The source destructures `part.split(':')` into `[prop, value]`, so the
value is the piece **between the first and the second** `':'` — not the
whole remainder after the first `':'` as the claim states. -/

theorem splitOn_cons_self (a : Char) (t : Str) :
    (a :: t).splitOn a = [] :: t.splitOn a := by
  show (a :: t).splitOnP (· == a) = _
  rw [List.splitOnP_cons, if_pos (by simp)]
  rfl

theorem splitOn_getD_zero (c : Char) :
    ∀ l : Str, (l.splitOn c).getD 0 [] = l.takeWhile (fun x => !(x == c)) := by
  intro l
  induction l with
  | nil => rfl
  | cons a t ih =>
    by_cases hac : a = c
    · subst hac
      rw [splitOn_cons_self, List.takeWhile_cons]
      simp
    · rw [splitOn_cons_ne hac, List.takeWhile_cons, if_pos (by simp [hac])]
      cases hsp : t.splitOn c with
      | nil => exact absurd hsp (List.splitOnP_ne_nil _ t)
      | cons h rest =>
        rw [List.modifyHead_cons]
        rw [hsp] at ih
        simp only [List.getD_cons_zero] at ih ⊢
        rw [ih]

theorem splitOn_getD_one (c : Char) :
    ∀ l : Str, (l.splitOn c).getD 1 [] =
      ((l.dropWhile (fun x => !(x == c))).drop 1).takeWhile (fun x => !(x == c)) := by
  intro l
  induction l with
  | nil => rfl
  | cons a t ih =>
    by_cases hac : a = c
    · subst hac
      rw [splitOn_cons_self, List.dropWhile_cons, if_neg (by simp)]
      simp only [List.getD_cons_succ, List.drop_succ_cons, List.drop_zero]
      exact splitOn_getD_zero a t
    · rw [splitOn_cons_ne hac, List.dropWhile_cons, if_pos (by simp [hac])]
      cases hsp : t.splitOn c with
      | nil => exact absurd hsp (List.splitOnP_ne_nil _ t)
      | cons h rest =>
        rw [List.modifyHead_cons]
        rw [hsp] at ih
        simp only [List.getD_cons_succ, List.getD_cons_zero] at ih ⊢
        exact ih

/-- Segment property as the claim words it: everything before the first
`':'`, trimmed. -/
def claimedSegProp (seg : Str) : Str := jsTrim (seg.takeWhile (fun x => !(x == ':')))

/-- Segment value as the claim words it: the **entire** remainder after the
first `':'`, trimmed.  Written from the claim, to be compared with the
code's behaviour. -/
def claimedSegValue (seg : Str) : Str :=
  jsTrim ((seg.dropWhile (fun x => !(x == ':'))).drop 1)

/-- The parse operation exactly as claim C9 describes it. -/
def claimedParseStyle (s : Str) : PropMap :=
  (styleSegments s).foldl
    (fun acc seg =>
      if (claimedSegProp seg).isEmpty || (claimedSegValue seg).isEmpty then acc
      else insertProp acc (claimedSegProp seg) (claimedSegValue seg)) []

/-- Segment value as the code actually behaves: the piece between the
first and the second `':'`, trimmed. -/
def truncatedSegValue (seg : Str) : Str :=
  jsTrim (((seg.dropWhile (fun x => !(x == ':'))).drop 1).takeWhile (fun x => !(x == ':')))

/-- The parse operation as amended: like the claim, except that a value
containing `':'` is cut off at the second colon of the segment. -/
def truncatedParseStyle (s : Str) : PropMap :=
  (styleSegments s).foldl
    (fun acc seg =>
      if (claimedSegProp seg).isEmpty || (truncatedSegValue seg).isEmpty then acc
      else insertProp acc (claimedSegProp seg) (truncatedSegValue seg)) []

/-- **C9 counterexample**: on `"a: b:c"` the code yields `{a ↦ "b"}`, while
the claim ("a segment whose value itself contains a ':' keeps the entire
value after the first colon") demands `{a ↦ "b:c"}`. -/
theorem C9_counterexample :
    parseStyleString ['a', ':', ' ', 'b', ':', 'c'] = [(['a'], ['b'])] ∧
      claimedParseStyle ['a', ':', ' ', 'b', ':', 'c'] = [(['a'], ['b', ':', 'c'])] ∧
      parseStyleString ['a', ':', ' ', 'b', ':', 'c'] ≠
        claimedParseStyle ['a', ':', ' ', 'b', ':', 'c'] := by
  refine ⟨by decide, by decide, by decide⟩

/-- **C9 (amended)**: `parseStyleString` splits on `';'`, trims segments and
drops empty ones, splits each segment on `':'` keeping only the first two
pieces as `(property, value)` — so the value stops at the second colon —
trims both, and silently drops a segment whose property or value is empty.
-/
theorem C9_parse_splits (s : Str) : parseStyleString s = truncatedParseStyle s := by
  have h1 : ∀ seg, segProp seg = claimedSegProp seg := fun seg => by
    rw [segProp, splitOn_getD_zero, claimedSegProp]
  have h2 : ∀ seg, segValue seg = truncatedSegValue seg := fun seg => by
    rw [segValue, splitOn_getD_one, truncatedSegValue]
  have hbody : parseStep = fun acc seg =>
      if (claimedSegProp seg).isEmpty || (truncatedSegValue seg).isEmpty then acc
      else insertProp acc (claimedSegProp seg) (truncatedSegValue seg) := by
    funext acc seg
    simp only [parseStep, h1, h2]
  rw [parseStyleString, truncatedParseStyle, hbody]

/-! ## Font Resolution

Source:
```js
const FONT_FALLBACKS = {
  'Calibri': ['"Carlito"', '"Inter"', '"Noto Sans"', '"Helvetica Neue"', 'Arial', 'sans-serif'],
  'Segoe UI': ['"Inter"', '"Noto Sans"', '"Helvetica Neue"', 'Arial', 'sans-serif'],
}
const DEFAULT_FONT_FALLBACKS = ['"Inter"', '"Noto Sans"', '"Helvetica Neue"', 'Arial', 'sans-serif']
function normalizeFontName(name = '') {
  return name.replace(/^['"]|['"]$/g, '').trim()
}
function buildFontFamily(name) {
  const primary = normalizeFontName(name) || 'Segoe UI'
  const fallbacks = FONT_FALLBACKS[primary] || DEFAULT_FONT_FALLBACKS
  const primaryToken = /\s/.test(primary) ? `"${primary}"` : primary
  const seen = new Set()
  return [primaryToken, ...fallbacks].filter(part => {
    const key = part.toLowerCase()
    if (seen.has(key)) return false
    seen.add(key)
    return true
  }).join(', ')
}
```
The regex `/^['\x27"]|['"]$/g` removes one leading and one trailing quote
character; the `filter` with the external `seen` set keeps the first
occurrence of each lowercased entry. -/

def stripQuoteStart (s : Str) : Str :=
  match s with
  | c :: rest => if c = '\'' ∨ c = '"' then rest else c :: rest
  | [] => []

def stripQuoteEnd (s : Str) : Str :=
  match s.getLast? with
  | some c => if c = '\'' ∨ c = '"' then s.dropLast else s
  | none => s

def normalizeFontName (name : Str) : Str := jsTrim (stripQuoteEnd (stripQuoteStart name))

def DEFAULT_FONT_FALLBACKS : List Str :=
  ["\"Inter\"".data, "\"Noto Sans\"".data, "\"Helvetica Neue\"".data,
    "Arial".data, "sans-serif".data]

def FONT_FALLBACKS (primary : Str) : Option (List Str) :=
  if primary = "Calibri".data then
    some ["\"Carlito\"".data, "\"Inter\"".data, "\"Noto Sans\"".data,
      "\"Helvetica Neue\"".data, "Arial".data, "sans-serif".data]
  else if primary = "Segoe UI".data then
    some ["\"Inter\"".data, "\"Noto Sans\"".data, "\"Helvetica Neue\"".data,
      "Arial".data, "sans-serif".data]
  else none

/-- `normalizeFontName(name) || 'Segoe UI'`. -/
def jsPrimary (name : Str) : Str :=
  let n := normalizeFontName name
  if n.isEmpty then "Segoe UI".data else n

/-- `/\s/.test(primary) ? `"${primary}"` : primary`. -/
def primaryTok (name : Str) : Str :=
  let primary := jsPrimary name
  if primary.any Char.isWhitespace then '"' :: primary ++ ['"'] else primary

/-- The `filter` over the `seen` set: first-occurrence de-duplication by
lowercased key. -/
def dedupAux (seen : List Str) : List Str → List Str
  | [] => []
  | x :: xs =>
    let key := x.map Char.toLower
    if key ∈ seen then dedupAux seen xs else x :: dedupAux (key :: seen) xs

def buildFontFamilyList (name : Str) : List Str :=
  let fallbacks := (FONT_FALLBACKS (jsPrimary name)).getD DEFAULT_FONT_FALLBACKS
  dedupAux [] (primaryTok name :: fallbacks)

def buildFontFamily (name : Str) : Str :=
  List.intercalate [',', ' '] (buildFontFamilyList name)

theorem dedupAux_key_not_mem_seen :
    ∀ (l : List Str) (seen : List Str) (y : Str), y ∈ dedupAux seen l →
      y.map Char.toLower ∉ seen := by
  intro l
  induction l with
  | nil => intro seen y hy; cases hy
  | cons x xs ih =>
    intro seen y hy
    rw [dedupAux] at hy
    split_ifs at hy with hk
    · exact ih seen y hy
    · rcases List.mem_cons.mp hy with rfl | hy'
      · exact hk
      · have := ih _ y hy'
        intro hmem
        exact this (List.mem_cons.mpr (Or.inr hmem))

theorem dedupAux_pairwise :
    ∀ (l : List Str) (seen : List Str),
      (dedupAux seen l).Pairwise (fun a b => a.map Char.toLower ≠ b.map Char.toLower) := by
  intro l
  induction l with
  | nil => intro seen; exact List.Pairwise.nil
  | cons x xs ih =>
    intro seen
    rw [dedupAux]
    split_ifs with hk
    · exact ih seen
    · refine List.Pairwise.cons ?_ (ih _)
      intro y hy he
      exact dedupAux_key_not_mem_seen xs _ y hy (he ▸ List.mem_cons_self _ _)

theorem dedupAux_sublist :
    ∀ (l : List Str) (seen : List Str), List.Sublist (dedupAux seen l) l := by
  intro l
  induction l with
  | nil => intro seen; exact List.Sublist.refl []
  | cons x xs ih =>
    intro seen
    rw [dedupAux]
    split_ifs with hk
    · exact (ih seen).cons x
    · exact (ih _).cons₂ x

/-- **C8**: `buildFontFamily` produces a list whose first entry is the
requested font name (normalized, defaulting to `Segoe UI` when empty, and
quoted exactly when it contains whitespace), with no duplicate family
names under case-insensitive comparison, preserving first-occurrence order
of the `primary :: fallbacks` chain (the list is a sublist of it). -/
theorem C8_font_family (name : Str) :
    (buildFontFamilyList name).head? =
      some (let primary :=
              if (normalizeFontName name).isEmpty then "Segoe UI".data
              else normalizeFontName name
            if primary.any Char.isWhitespace then '"' :: primary ++ ['"'] else primary) ∧
      (buildFontFamilyList name).Pairwise
        (fun a b => a.map Char.toLower ≠ b.map Char.toLower) ∧
      List.Sublist (buildFontFamilyList name)
        (primaryTok name :: (FONT_FALLBACKS (jsPrimary name)).getD DEFAULT_FONT_FALLBACKS) ∧
      buildFontFamily name = List.intercalate [',', ' '] (buildFontFamilyList name) := by
  refine ⟨?_, ?_, ?_, rfl⟩
  · rw [buildFontFamilyList, dedupAux, if_neg (List.not_mem_nil _)]
    rfl
  · exact dedupAux_pairwise _ _
  · exact dedupAux_sublist _ _

/-! ## Number parsing (JavaScript builtins)

`parseFloat` and `Number(...)` are JavaScript builtins, modelled over exact
rationals; `NaN` is `none`.  A leading `"Infinity"` (which `parseFloat`
accepts) is also modelled as `none` here: every consumer of `parseFloat`
in the source immediately maps non-finite numbers to `null` through the
`Number.isFinite` guard inside `toFixedNumber`/`ptToPx`/`pxToPt`, so
collapsing `±Infinity` with `NaN` does not change any observable result of
the embedded style decoders.  `Number(...)` keeps the distinction (type
`JsNum`), which the document-writer claim C5 turns on. -/

def digitsVal (l : Str) : ℕ := l.foldl (fun a c => a * 10 + (c.toNat - 48)) 0

def takeDigits (l : Str) : Str × Str := (l.takeWhile Char.isDigit, l.dropWhile Char.isDigit)

/-- The exponent part `e[+-]?digits` of a decimal literal; yields the
exponent and the remaining input (input unchanged when malformed). -/
def parseExpPart (l : Str) : ℤ × Str :=
  match l with
  | c :: rest =>
    if c = 'e' ∨ c = 'E' then
      match rest with
      | sgn :: rest2 =>
        if sgn = '+' ∨ sgn = '-' then
          let (d, r) := takeDigits rest2
          if d.isEmpty then (0, l)
          else ((if sgn = '-' then -(digitsVal d : ℤ) else (digitsVal d : ℤ)), r)
        else
          let (d, r) := takeDigits rest
          if d.isEmpty then (0, l) else ((digitsVal d : ℤ), r)
      | [] => (0, l)
    else (0, l)
  | [] => (0, l)

/-- An unsigned decimal literal `digits[.digits][exp]` (or `.digits[exp]`),
as both `parseFloat` and `Number` understand it: value plus remaining
input, `none` when no digit is present. -/
def parseDecimal (l : Str) : Option (ℚ × Str) :=
  let (ip, r1) := takeDigits l
  let (fp, r2) :=
    match r1 with
    | '.' :: rest => takeDigits rest
    | _ => ([], r1)
  if ip.isEmpty && fp.isEmpty then none
  else
    let mantissa : ℚ := (digitsVal ip : ℚ) + (digitsVal fp : ℚ) / ((10 : ℚ) ^ fp.length)
    let (e, r3) := parseExpPart r2
    some (mantissa * (10 : ℚ) ^ e, r3)

/-- JavaScript `parseFloat`: skip leading whitespace, take an optional
sign, then the longest decimal-literal prefix; trailing garbage is
ignored. -/
def jsParseFloat (s : Str) : Option ℚ :=
  let t := s.dropWhile Char.isWhitespace
  match t with
  | '-' :: rest => (parseDecimal rest).map (fun p => -p.1)
  | '+' :: rest => (parseDecimal rest).map (·.1)
  | _ => (parseDecimal t).map (·.1)

/-! ## CSS font-size parsing

Source:
```js
function parseCssFontSize(value) {
  if (!value) return null
  const normalized = `${value}`.trim()
  const numeric = parseFloat(normalized)
  if (Number.isNaN(numeric)) return null
  const isPt = normalized.toLowerCase().endsWith('pt')
  return isPt ? ptToPx(numeric) : numeric
}
``` -/
def parseCssFontSize (value : Str) : Option ℚ :=
  if value.isEmpty then none
  else
    let normalized := jsTrim value
    match jsParseFloat normalized with
    | none => none
    | some numeric =>
      let isPt := List.isSuffixOf "pt".data (normalized.map Char.toLower)
      if isPt then some (ptToPx numeric) else some numeric

/-! ## Style Codec, xlsx-object variant (`cssToXlsxStyle`)

Source (lines 124–174 of the component file): splits the CSS string into
segments exactly like `parseStyleString` and switches on the property
name, mutating a `style` object.  `style.font = style.font || {}` creates
the font object *before* the per-property checks, so e.g. a `font-size`
that fails to parse still leaves an (empty) font object behind. -/

structure XlsxFill where
  patternType : Str
  fgColor : Option XlsxColor
  bgColor : Option XlsxColor
deriving DecidableEq

structure XlsxFont where
  color : Option (Option XlsxColor) := none
  name : Option Str := none
  sz : Option ℚ := none
  bold : Option Bool := none
  italic : Option Bool := none
deriving DecidableEq

structure XlsxStyle where
  font : Option XlsxFont := none
  fill : Option XlsxFill := none
deriving DecidableEq

/-- `style.font = style.font || {}` followed by a field update. -/
def xlsxSetFont (st : XlsxStyle) (f : XlsxFont → XlsxFont) : XlsxStyle :=
  { st with font := some (f (st.font.getD {})) }

def cssToXlsxStyleStep (st : XlsxStyle) (part : Str) : XlsxStyle :=
  let prop := segProp part
  let value := segValue part
  if prop.isEmpty || value.isEmpty then st
  else if prop = "color".data then
    xlsxSetFont st (fun f => { f with color := some (cssColorToXlsx value) })
  else if prop = "background-color".data then
    { st with fill := some ⟨"solid".data, cssColorToXlsx value, cssColorToXlsx value⟩ }
  else if prop = "font-family".data then
    xlsxSetFont st (fun f => { f with name := some value })
  else if prop = "font-size".data then
    match parseCssFontSize value with
    | some sizePx => xlsxSetFont st (fun f => { f with sz := some (pxToPt sizePx) })
    | none => xlsxSetFont st (fun f => f)
  else if prop = "font-weight".data then
    xlsxSetFont st (fun f => { f with bold := some (value == "bold".data || value == "700".data) })
  else if prop = "font-style".data then
    xlsxSetFont st (fun f => { f with italic := some (value == "italic".data) })
  else st

/-- `return Object.keys(style).length ? style : null`. -/
def cssToXlsxStyle (cssString : Str) : Option XlsxStyle :=
  if cssString.isEmpty then none
  else
    let style := (styleSegments cssString).foldl cssToXlsxStyleStep {}
    if style.font.isSome || style.fill.isSome then some style else none

/-! ## Style Codec, ExcelJS variant (`cssToExcelStyle`) -/

/-- JS `str.replace('#', '')`: remove only the first occurrence. -/
def removeFirstHash : Str → Str
  | [] => []
  | c :: rest => if c = '#' then rest else c :: removeFirstHash rest

/-- JS `s.padStart(6, '0')`. -/
def padStart6 (s : Str) : Str := List.replicate (6 - s.length) '0' ++ s

/-- `` `FF${v.replace('#', '').padStart(6, '0').toUpperCase()}` `` — the
color packing used inside `cssToExcelStyle` (note: zero-padding, **not**
3-digit doubling, and no length validation). -/
def excelArgbOfCss (v : Str) : Str :=
  'F' :: 'F' :: (padStart6 (removeFirstHash v)).map Char.toUpper

structure ExcelFont where
  color : Option Str := none
  name : Option Str := none
  size : Option ℚ := none
  bold : Option Bool := none
  italic : Option Bool := none
deriving DecidableEq

/-- `{ type: 'pattern', pattern: 'solid', fgColor: { argb } }`; the two
constant fields are collapsed into the `pattern` tag. -/
structure ExcelFill where
  pattern : Str
  fgColorArgb : Str
deriving DecidableEq

structure ExcelStyleParts where
  font : Option ExcelFont := none
  fill : Option ExcelFill := none
deriving DecidableEq

/-- JS property read `parsed[k]` plus the truthiness test the source
applies to it (an absent key is `undefined`; an empty string is falsy). -/
def lookupProp (m : PropMap) (k : Str) : Option Str :=
  match m.find? (fun p => p.1 == k) with
  | some kv => if kv.2.isEmpty then none else some kv.2
  | none => none

def cssToExcelStyle (cssString : Str) : ExcelStyleParts :=
  if cssString.isEmpty then {}
  else
    let parsed := parseStyleString cssString
    let color := (lookupProp parsed "color".data).map excelArgbOfCss
    let name := (lookupProp parsed "font-family".data).map
      (fun v => normalizeFontName ((v.splitOn ',').getD 0 []))
    let size := (lookupProp parsed "font-size".data).bind
      (fun v => (parseCssFontSize v).map pxToPt)
    let bold := (lookupProp parsed "font-weight".data).map
      (fun v => v == "bold".data || v == "700".data)
    let italic := (lookupProp parsed "font-style".data).map
      (fun v => v == "italic".data)
    let fill := (lookupProp parsed "background-color".data).map
      (fun v => ExcelFill.mk "solid".data (excelArgbOfCss v))
    let hasFont := color.isSome || name.isSome || size.isSome || bold.isSome || italic.isSome
    { font := if hasFont then some ⟨color, name, size, bold, italic⟩ else none,
      fill := fill }

/-! ### Single-property style strings -/

theorem serializeProps_single (k v : Str) :
    serializeProps [(k, v)] = k ++ ':' :: ' ' :: v := by
  simp [serializeProps, propToken, List.intercalate]

theorem parseStyleString_single (k v : Str) (h : WFEntry (k, v)) :
    parseStyleString (k ++ ':' :: ' ' :: v) = [(k, v)] := by
  rw [← serializeProps_single]
  exact parse_serialize_of_wf
    ⟨fun kv hkv => (List.mem_singleton.mp hkv) ▸ h, by simp⟩

theorem styleSegments_single (k v : Str) (h : WFEntry (k, v)) :
    styleSegments (k ++ ':' :: ' ' :: v) = [k ++ ':' :: ' ' :: v] := by
  have hs := styleSegments_serialize [(k, v)] (fun kv hkv => (List.mem_singleton.mp hkv) ▸ h)
  rw [serializeProps_single] at hs
  rw [hs]
  rfl

theorem lookupProp_single_same (k v : Str) (hv : v ≠ []) :
    lookupProp [(k, v)] k = some v := by
  rw [lookupProp]
  simp [List.find?, hv]

theorem lookupProp_single_other (k v k' : Str) (hk : (k == k') = false) :
    lookupProp [(k, v)] k' = none := by
  rw [lookupProp]
  simp [List.find?, hk]

/-- **C6 counterexample**: on the valid 3-digit color `#abc` the ExcelJS
variant (inside `cssToExcelStyle`) zero-pads to `FF000ABC` instead of
doubling each digit; the xlsx variant yields `FFAABBCC`.  The claim that
*both* variants expand 3-digit hex by doubling (and reject other lengths)
fails for the ExcelJS variant. -/
theorem C6_counterexample :
    ((cssToExcelStyle "color: #abc".data).font.bind (·.color)) = some ("FF000ABC".data) ∧
      (cssColorToXlsx "#abc".data).map (·.rgb) = some ("FFAABBCC".data) ∧
      ("FF000ABC".data : Str) ≠ "FFAABBCC".data := by
  refine ⟨by decide, by decide, by decide⟩

/-- **C6 (amended)**: the xlsx-object variant `cssColorToXlsx` behaves as
claimed — a 3-digit hex is expanded by doubling each digit, any stripped
length other than 3 or 6 yields no color, and full opacity is forced by
the `FF` prefix.  The ExcelJS variant inside `cssToExcelStyle` instead
strips the first `'#'`, left-pads with `'0'` to six digits, uppercases and
prefixes `FF`; it never rejects an input, but it does force the `FF`
opacity prefix like the other variant. -/
theorem C6_color_variants :
    (∀ s : Str, (stripHash (jsTrim s)).length = 3 →
      cssColorToXlsx s =
        some (XlsxColor.mk
          ('F' :: 'F' ::
            (((stripHash (jsTrim s)).map (fun ch => [ch, ch])).flatten).map Char.toUpper)
          [])) ∧
      (∀ s : Str, (stripHash (jsTrim s)).length ≠ 3 → (stripHash (jsTrim s)).length ≠ 6 →
        cssColorToXlsx s = none) ∧
      (∀ (s : Str) (c : XlsxColor), cssColorToXlsx s = some c → c.rgb.take 2 = ['F', 'F']) ∧
      (∀ v : Str, WFEntry ("color".data, v) →
        (cssToExcelStyle ("color".data ++ ':' :: ' ' :: v)).font.bind (·.color) =
            some (excelArgbOfCss v) ∧
          (excelArgbOfCss v).take 2 = ['F', 'F']) := by
  refine ⟨?_, ?_, ?_, ?_⟩
  · intro s h3
    have hne : s ≠ [] := by
      intro he
      subst he
      simp [jsTrim, stripHash] at h3
    have h6 : (hexDigits6 (stripHash (jsTrim s))).length = 6 := hexDigits6_length (Or.inl h3)
    rw [cssColorToXlsx, if_neg (by simpa [List.isEmpty_iff] using hne), if_pos h6,
      hexDigits6, if_pos h3]
  · intro s h3 h6
    by_cases hne : s = []
    · subst hne; rfl
    · have hlen : (hexDigits6 (stripHash (jsTrim s))).length ≠ 6 := by
        rw [hexDigits6, if_neg h3]
        exact h6
      rw [cssColorToXlsx, if_neg (by simpa [List.isEmpty_iff] using hne), if_neg hlen]
  · intro s c h
    simp only [cssColorToXlsx] at h
    by_cases h1 : s.isEmpty = true
    · rw [if_pos h1] at h
      cases h
    · rw [if_neg h1] at h
      by_cases h2 : (hexDigits6 (stripHash (jsTrim s))).length = 6
      · rw [if_pos h2] at h
        injection h with h'
        subst h'
        rfl
      · rw [if_neg h2] at h
        cases h
  · intro v hv
    have hparse := parseStyleString_single ("color".data) v hv
    refine ⟨?_, rfl⟩
    rw [cssToExcelStyle, if_neg (by simp), hparse]
    simp only [lookupProp_single_same ("color".data) v hv.2.1,
      lookupProp_single_other ("color".data) v ("font-family".data) (by decide),
      lookupProp_single_other ("color".data) v ("font-size".data) (by decide),
      lookupProp_single_other ("color".data) v ("font-weight".data) (by decide),
      lookupProp_single_other ("color".data) v ("font-style".data) (by decide),
      lookupProp_single_other ("color".data) v ("background-color".data) (by decide)]
    rfl

/-- Witness for the amended C6: the 3-digit branch at `"#1aB"` and the
ExcelJS branch at `v = "#abc"`. -/
theorem C6_color_variants_witness :
    ((stripHash (jsTrim "#1aB".data)).length = 3 ∧
      cssColorToXlsx "#1aB".data =
        some (XlsxColor.mk
          ('F' :: 'F' ::
            (((stripHash (jsTrim "#1aB".data)).map (fun ch => [ch, ch])).flatten).map
              Char.toUpper)
          [])) ∧
      (WFEntry ("color".data, "#abc".data) ∧
        (cssToExcelStyle ("color".data ++ ':' :: ' ' :: "#abc".data)).font.bind (·.color) =
            some (excelArgbOfCss "#abc".data) ∧
          (excelArgbOfCss "#abc".data).take 2 = ['F', 'F']) :=
  ⟨⟨by decide, C6_color_variants.1 _ (by decide)⟩,
    ⟨by decide, C6_color_variants.2.2.2 _ (by decide)⟩⟩

/-- **C10**: for a `font-size` declaration, both style-string decoders pipe
the value through `parseCssFontSize` — which converts a number with a
case-insensitive `pt` suffix from points to pixels via `ptToPx`, takes any
other numeric value (with `px` suffix or bare) as pixels, and yields no
number when the value is non-numeric — and then apply `pxToPt`, so
`font-size: 12pt` decodes to a 12-point font in both variants, while a
non-numeric value simply produces no size field instead of an error. -/
theorem C10_font_size_decoding :
    (∀ v : Str, WFEntry ("font-size".data, v) →
      ((((cssToXlsxStyle ("font-size".data ++ ':' :: ' ' :: v)).bind (·.font)).bind (·.sz)) =
          (parseCssFontSize v).map pxToPt) ∧
        ((cssToExcelStyle ("font-size".data ++ ':' :: ' ' :: v)).font.bind (·.size) =
          (parseCssFontSize v).map pxToPt)) ∧
      (∀ v : Str, v ≠ [] →
        (∀ q : ℚ, jsParseFloat (jsTrim v) = some q →
          List.isSuffixOf "pt".data ((jsTrim v).map Char.toLower) = true →
          parseCssFontSize v = some (ptToPx q)) ∧
        (∀ q : ℚ, jsParseFloat (jsTrim v) = some q →
          List.isSuffixOf "pt".data ((jsTrim v).map Char.toLower) = false →
          parseCssFontSize v = some q) ∧
        (jsParseFloat (jsTrim v) = none → parseCssFontSize v = none)) ∧
      ((((cssToXlsxStyle "font-size: 12pt".data).bind (·.font)).bind (·.sz)) = some 12 ∧
        ((cssToExcelStyle "font-size: 12pt".data).font.bind (·.size)) = some 12 ∧
        (((cssToXlsxStyle "font-size: large".data).bind (·.font)).bind (·.sz)) = none ∧
        ((cssToExcelStyle "font-size: large".data).font.bind (·.size)) = none) := by
  refine ⟨?_, ?_, by with_unfolding_all decide, by with_unfolding_all decide,
    by with_unfolding_all decide, by with_unfolding_all decide⟩
  · intro v hv
    have hseg : styleSegments (propToken ("font-size".data, v)) =
        [propToken ("font-size".data, v)] := styleSegments_single ("font-size".data) v hv
    have hparse : parseStyleString (propToken ("font-size".data, v)) =
        [("font-size".data, v)] := parseStyleString_single ("font-size".data) v hv
    have h1 : segProp (propToken ("font-size".data, v)) = "font-size".data :=
      segProp_propToken hv
    have h2 : segValue (propToken ("font-size".data, v)) = v := segValue_propToken hv
    have hnonempty : ¬(propToken ("font-size".data, v)).isEmpty = true := by
      simp [propToken, List.isEmpty_iff]
    constructor
    · show (((cssToXlsxStyle (propToken ("font-size".data, v))).bind (·.font)).bind (·.sz)) = _
      rw [cssToXlsxStyle, if_neg hnonempty, hseg, List.foldl_cons, List.foldl_nil]
      have hstep : cssToXlsxStyleStep {} (propToken ("font-size".data, v)) =
          (match parseCssFontSize v with
            | some sizePx =>
              xlsxSetFont {} (fun f => { f with sz := some (pxToPt sizePx) })
            | none => xlsxSetFont {} (fun f => f)) := by
        simp only [cssToXlsxStyleStep, h1, h2]
        rw [if_neg (by simp [List.isEmpty_iff, hv.2.1]), if_neg (by decide),
          if_neg (by decide), if_neg (by decide), if_pos trivial]
      rw [hstep]
      cases hp : parseCssFontSize v with
      | none => rfl
      | some px => rfl
    · show (cssToExcelStyle (propToken ("font-size".data, v))).font.bind (·.size) = _
      rw [cssToExcelStyle, if_neg hnonempty, hparse]
      simp only [lookupProp_single_same ("font-size".data) v hv.2.1,
        lookupProp_single_other ("font-size".data) v ("color".data) (by decide),
        lookupProp_single_other ("font-size".data) v ("font-family".data) (by decide),
        lookupProp_single_other ("font-size".data) v ("font-weight".data) (by decide),
        lookupProp_single_other ("font-size".data) v ("font-style".data) (by decide),
        lookupProp_single_other ("font-size".data) v ("background-color".data) (by decide)]
      rw [show ((some v).bind fun a => Option.map pxToPt (parseCssFontSize a)) =
          Option.map pxToPt (parseCssFontSize v) from rfl]
      cases hp : parseCssFontSize v with
      | none => rfl
      | some px => rfl
  · intro v hvne
    have hne : ¬v.isEmpty = true := by simpa [List.isEmpty_iff] using hvne
    refine ⟨?_, ?_, ?_⟩
    · intro q hq hpt
      rw [parseCssFontSize, if_neg hne]
      simp only [hq, hpt, if_pos]
    · intro q hq hpt
      rw [parseCssFontSize, if_neg hne]
      simp only [hq, hpt]
      rfl
    · intro hq
      rw [parseCssFontSize, if_neg hne]
      simp only [hq]

/-- Witness for C10 at the declaration `font-size: 12pt` and value
`"12pt"`. -/
theorem C10_font_size_decoding_witness :
    (WFEntry ("font-size".data, "12pt".data) ∧
      ((((cssToXlsxStyle ("font-size".data ++ ':' :: ' ' :: "12pt".data)).bind
            (·.font)).bind (·.sz)) =
          (parseCssFontSize "12pt".data).map pxToPt) ∧
        ((cssToExcelStyle ("font-size".data ++ ':' :: ' ' :: "12pt".data)).font.bind
            (·.size) =
          (parseCssFontSize "12pt".data).map pxToPt)) ∧
      ("12pt".data ≠ ([] : Str) ∧
        jsParseFloat (jsTrim "12pt".data) = some 12 ∧
        List.isSuffixOf "pt".data ((jsTrim "12pt".data).map Char.toLower) = true ∧
        parseCssFontSize "12pt".data = some (ptToPx 12)) :=
  ⟨⟨by decide, C10_font_size_decoding.1 _ (by decide)⟩,
    by decide, by with_unfolding_all decide, by decide,
    (C10_font_size_decoding.2.1 _ (by decide)).1 12 (by with_unfolding_all decide) (by decide)⟩

/-! ## Document Reader (`extractDataAndStyles`, grid part)

Source (component file, lines 314–372): load the workbook, take the first
worksheet, and build a dense `rows × cols` grid of display values with
`rows = max(worksheet.rowCount, 1)` and
`cols = max(max over rows of row.cellCount, 1)`.

External-library model (ExcelJS): a worksheet is the list of its stored
rows (`rowCount` = number of stored rows, `row.cellCount` = number of
stored cells of that row); `getRow`/`getCell` beyond the stored extent
return fresh empty cells whose `value` is `null` and whose rendered `text`
is `''`.  The `data` array is pre-filled with `''` and then every cell in
bounds is overwritten by the loop, so `extractData` is written directly
as that comprehension.  The sparse style map also returned by
`extractDataAndStyles` plays no part in claim C4 and is not modelled.

A detail of the value chain: a `Date` value satisfies
`typeof v === 'object'`, so it is handled by the generic object branch
(ending at `cell.text || ''`); the later `v instanceof Date` branch is
unreachable.  The model reflects the reachable behaviour. -/

/-- A JavaScript primitive cell payload. -/
inductive Prim where
  | undef
  | null
  | str (s : Str)
  | num (q : ℚ)
deriving DecidableEq

/-- One run of a rich-text value (`{ text }`, possibly absent). -/
structure RichRun where
  text : Option Str := none
deriving DecidableEq

/-- An object-typed cell value, with the fields the reader inspects.
`hasResult`/`result` distinguish an absent `result` field from a present
but `undefined` one (`'result' in v && v.result !== undefined`). -/
structure CellObj where
  formula : Option Str := none
  sharedFormula : Option Str := none
  richText : Option (List RichRun) := none
  hasHyperlink : Bool := false
  hyperlink : Str := []
  text : Option Str := none
  hasResult : Bool := false
  result : Prim := .undef
deriving DecidableEq

inductive CellValue where
  | prim (p : Prim)
  | obj (o : CellObj)
  | date (iso : Str)
deriving DecidableEq

/-- An ExcelJS cell as the reader sees it: `cell.value`, `cell.formula`
and the rendered `cell.text`. -/
structure Cell where
  value : CellValue := .prim .null
  formula : Option Str := none
  text : Str := []
deriving DecidableEq

/-- JavaScript truthiness for an optional string field. -/
def truthyStr (s : Option Str) : Option Str :=
  match s with
  | some t => if t.isEmpty then none else some t
  | none => none

/-- `cell.formula || (v && 'formula' in v && v.formula) ||
(v && 'sharedFormula' in v && v.sharedFormula)`. -/
def cellFormula (cell : Cell) : Option Str :=
  match truthyStr cell.formula with
  | some f => some f
  | none =>
    match cell.value with
    | .obj o =>
      match truthyStr o.formula with
      | some f => some f
      | none => truthyStr o.sharedFormula
    | _ => none

/-- The display-value chain of the reader loop. -/
def displayValue (cell : Cell) : Prim :=
  match cellFormula cell with
  | some f => .str ('=' :: f)
  | none =>
    match cell.value with
    | .prim .null => .str []
    | .prim .undef => .str []
    | .prim (.str s) => .str s
    | .prim (.num q) => .num q
    | .date _ => .str cell.text
    | .obj o =>
      match o.richText with
      | some runs => .str (runs.map (fun r => (truthyStr r.text).getD [])).flatten
      | none =>
        if o.hasHyperlink then
          .str ((truthyStr o.text).getD ((truthyStr (some o.hyperlink)).getD []))
        else if o.hasResult ∧ o.result ≠ .undef then o.result
        else .str cell.text

/-- `displayValue === undefined || displayValue === null ? '' :
displayValue`. -/
def normalizeDisplay (p : Prim) : Prim :=
  match p with
  | .undef => .str []
  | .null => .str []
  | x => x

abbrev Worksheet := List (List Cell)

/-- `worksheet.getRow(r).getCell(c)` (1-based in the source, 0-based
here), yielding a fresh empty cell outside the stored extent. -/
def getCellAt (ws : Worksheet) (r c : Nat) : Cell := (ws.getD r []).getD c {}

/-- `maxCol` as computed by the `eachRow({ includeEmpty: true })` loop. -/
def wsMaxCellCount (ws : Worksheet) : Nat := ws.foldl (fun m row => max m row.length) 0

/-- The grid produced by `extractDataAndStyles`. -/
def extractData (ws : Worksheet) : List (List Prim) :=
  let rows := max ws.length 1
  let cols := max (wsMaxCellCount ws) 1
  (List.range rows).map fun r =>
    (List.range cols).map fun c => normalizeDisplay (displayValue (getCellAt ws r c))

theorem foldl_max_le_init (l : Worksheet) :
    ∀ a : ℕ, a ≤ l.foldl (fun m row => max m row.length) a := by
  induction l with
  | nil => intro a; exact le_refl a
  | cons row t ih =>
    intro a
    rw [List.foldl_cons]
    exact le_trans (le_max_left a row.length) (ih (max a row.length))

theorem length_le_foldl_max (l : Worksheet) :
    ∀ (a : ℕ) (row : List Cell), row ∈ l →
      row.length ≤ l.foldl (fun m r => max m r.length) a := by
  induction l with
  | nil => intro a row hrow; cases hrow
  | cons r t ih =>
    intro a row hrow
    rw [List.foldl_cons]
    rcases List.mem_cons.mp hrow with rfl | hrow'
    · exact le_trans (le_max_right a row.length) (foldl_max_le_init t _)
    · exact ih _ row hrow'

theorem normalizeDisplay_ne (p : Prim) :
    normalizeDisplay p ≠ Prim.null ∧ normalizeDisplay p ≠ Prim.undef := by
  cases p <;> simp [normalizeDisplay]

/-- **C4**: for every loaded worksheet, the grid returned by the reader
has exactly `max(declared row count, 1)` rows, each of exactly
`max(observed max per-row cell count, 1)` columns (rectangular); every
populated cell position of the sheet lies inside those bounds and the
grid entry there is the cell's normalized display value; and no grid
entry is ever `null` or `undefined` (a missing/null display value becomes
the empty string). -/
theorem C4_reader_grid (ws : Worksheet) :
    (extractData ws).length = max ws.length 1 ∧
      (∀ row ∈ extractData ws, row.length = max (wsMaxCellCount ws) 1) ∧
      (∀ r c : Nat, r < ws.length → c < (ws.getD r []).length →
        r < max ws.length 1 ∧ c < max (wsMaxCellCount ws) 1) ∧
      (∀ r c : Nat, r < max ws.length 1 → c < max (wsMaxCellCount ws) 1 →
        ((extractData ws).getD r []).getD c (.str []) =
          normalizeDisplay (displayValue (getCellAt ws r c))) ∧
      (∀ row ∈ extractData ws, ∀ p ∈ row, p ≠ Prim.null ∧ p ≠ Prim.undef) := by
  refine ⟨?_, ?_, ?_, ?_, ?_⟩
  · simp [extractData]
  · intro row hrow
    rw [extractData] at hrow
    obtain ⟨r, _, rfl⟩ := List.mem_map.mp hrow
    simp
  · intro r c hr hc
    constructor
    · exact lt_of_lt_of_le hr (le_max_left _ _)
    · refine lt_of_lt_of_le (lt_of_lt_of_le hc ?_) (le_max_left _ _)
      apply length_le_foldl_max
      rw [List.getD_eq_getElem ws [] hr]
      exact List.getElem_mem hr
  · intro r c hr hc
    rw [extractData]
    have h1 : ((List.range (max ws.length 1)).map fun r =>
        (List.range (max (wsMaxCellCount ws) 1)).map fun c =>
          normalizeDisplay (displayValue (getCellAt ws r c))).getD r [] =
        (List.range (max (wsMaxCellCount ws) 1)).map fun c =>
          normalizeDisplay (displayValue (getCellAt ws r c)) := by
      rw [List.getD_eq_getElem _ _ (by simpa using hr)]
      simp
    rw [h1, List.getD_eq_getElem _ _ (by simpa using hc)]
    simp
  · intro row hrow p hp
    rw [extractData] at hrow
    obtain ⟨r, _, rfl⟩ := List.mem_map.mp hrow
    obtain ⟨c, _, rfl⟩ := List.mem_map.mp hp
    exact normalizeDisplay_ne _

/-- Witness for C4 on a concrete two-row worksheet (one stored cell, one
empty row): the entry at `(0, 0)` is the normalized display value of the
stored cell. -/
theorem C4_reader_grid_witness :
    ((extractData [[{ value := CellValue.prim (Prim.str ['h', 'i']) }], []]).getD 0 []).getD 0
        (Prim.str []) =
      normalizeDisplay
        (displayValue (getCellAt [[{ value := CellValue.prim (Prim.str ['h', 'i']) }], []] 0 0)) :=
  (C4_reader_grid [[{ value := CellValue.prim (Prim.str ['h', 'i']) }], []]).2.2.2.1 0 0
    (by decide) (by decide)

/-! ## Document Writer (`dataToExcelBuffer`, per-cell value typing)

Source:
```js
const cellStr = String(cellValue ?? '')
if (cellStr.startsWith('=')) {
  cell.value = { formula: cellStr.substring(1) }
} else {
  const num = Number(cellValue)
  if (!Number.isNaN(num) && cellStr.trim() !== '') {
    cell.value = num
  } else {
    cell.value = cellValue
  }
}
```
The grid snapshot the widget hands to the writer is an array of strings,
so the per-cell translation is modelled on string cell values
(`String(cellValue ?? '')` is then the value itself).  `Number(...)` on a
string is modelled in full: trim, empty → `0`, `Infinity` with optional
sign, decimal literals, and `0x`/`0o`/`0b` integer literals; anything
else is `NaN`. -/

/-- A JavaScript number as `Number(...)` can produce it. -/
inductive JsNum where
  | nan
  | inf (neg : Bool)
  | fin (q : ℚ)
deriving DecidableEq

def hexDigitVal (c : Char) : ℕ :=
  if c.isDigit then c.toNat - 48 else c.toLower.toNat - 87

/-- A full-string radix literal (the part after `0x`/`0o`/`0b`). -/
def parseRadix (base : ℕ) (isDig : Char → Bool) (l : Str) : Option ℕ :=
  if l ≠ [] ∧ l.all isDig then some (l.foldl (fun a c => a * base + hexDigitVal c) 0)
  else none

/-- A decimal literal that must consume the whole string. -/
def parseDecFull (l : Str) : Option ℚ :=
  match parseDecimal l with
  | some (q, []) => some q
  | _ => none

/-- JavaScript `Number(...)` applied to a string. -/
def jsNumberOfString (s : Str) : JsNum :=
  let t := jsTrim s
  if t.isEmpty then .fin 0
  else
    match t with
    | '0' :: 'x' :: rest =>
      match parseRadix 16 isHexDigitCh rest with
      | some n => .fin n
      | none => .nan
    | '0' :: 'X' :: rest =>
      match parseRadix 16 isHexDigitCh rest with
      | some n => .fin n
      | none => .nan
    | '0' :: 'o' :: rest =>
      match parseRadix 8 (fun c => '0' ≤ c && c ≤ '7') rest with
      | some n => .fin n
      | none => .nan
    | '0' :: 'O' :: rest =>
      match parseRadix 8 (fun c => '0' ≤ c && c ≤ '7') rest with
      | some n => .fin n
      | none => .nan
    | '0' :: 'b' :: rest =>
      match parseRadix 2 (fun c => c == '0' || c == '1') rest with
      | some n => .fin n
      | none => .nan
    | '0' :: 'B' :: rest =>
      match parseRadix 2 (fun c => c == '0' || c == '1') rest with
      | some n => .fin n
      | none => .nan
    | _ =>
      let signed : Bool × Str :=
        match t with
        | '-' :: r => (true, r)
        | '+' :: r => (false, r)
        | _ => (false, t)
      if signed.2 = "Infinity".data then .inf signed.1
      else
        match parseDecFull signed.2 with
        | some q => .fin (if signed.1 then -q else q)
        | none => .nan

/-- What the writer stores for one cell. -/
inductive WrittenVal where
  | formula (f : Str)
  | num (n : JsNum)
  | raw (s : Str)
deriving DecidableEq

/-- The per-cell value translation of `dataToExcelBuffer` for a
string-valued grid cell. -/
def writeCellValue (cellValue : Str) : WrittenVal :=
  let cellStr := cellValue
  if cellStr.head? = some '=' then .formula cellStr.tail
  else
    let num := jsNumberOfString cellValue
    if num ≠ .nan ∧ jsTrim cellStr ≠ [] then .num num else .raw cellValue

/-- **C5 counterexample**: the writer's guard is `!Number.isNaN(num)`,
not `Number.isFinite(num)`, so the text `"Infinity"` is stored as the
numeric value `Infinity` — the claim says any string that does not parse
as a *finite* number (and `"Infinity"` does not) is preserved unchanged.
-/
theorem C5_counterexample :
    writeCellValue ("Infinity".data) = .num (.inf false) ∧
      jsNumberOfString ("Infinity".data) = .inf false ∧
      WrittenVal.num (.inf false) ≠ .raw ("Infinity".data) := by
  refine ⟨by with_unfolding_all decide, by with_unfolding_all decide, by decide⟩

/-- **C5 (amended)**: for a grid cell whose string form does not start
with `'='`, the writer stores a numeric value iff the trimmed string is
nonempty and `Number(...)` does not yield `NaN` — this includes the
non-finite `Infinity` — and otherwise stores the original value
unchanged (including the empty string); a stored finite number is exactly
the `Number(...)` value, `"42"` is written as the number `42`, and
`"42abc"` is preserved as a string. -/
theorem C5_writer_coercion (v : Str) (hne : v.head? ≠ some '=') :
    ((∃ n, writeCellValue v = .num n) ↔ (jsTrim v ≠ [] ∧ jsNumberOfString v ≠ .nan)) ∧
      ((jsTrim v = [] ∨ jsNumberOfString v = .nan) → writeCellValue v = .raw v) ∧
      (∀ q : ℚ, writeCellValue v = .num (.fin q) → jsNumberOfString v = .fin q) ∧
      writeCellValue ("42".data) = .num (.fin 42) ∧
      writeCellValue ("42abc".data) = .raw ("42abc".data) ∧
      writeCellValue [] = .raw [] := by
  have hw : writeCellValue v =
      if jsNumberOfString v ≠ .nan ∧ jsTrim v ≠ [] then .num (jsNumberOfString v)
      else .raw v := by
    rw [writeCellValue, if_neg hne]
  refine ⟨⟨?_, ?_⟩, ?_, ?_, by with_unfolding_all decide, by with_unfolding_all decide,
    by decide⟩
  · rintro ⟨n, hn⟩
    rw [hw] at hn
    by_cases hcond : jsNumberOfString v ≠ .nan ∧ jsTrim v ≠ []
    · exact ⟨hcond.2, hcond.1⟩
    · rw [if_neg hcond] at hn
      cases hn
  · rintro ⟨h1, h2⟩
    rw [hw, if_pos ⟨h2, h1⟩]
    exact ⟨jsNumberOfString v, rfl⟩
  · intro h
    rw [hw] at *
    rcases h with h | h
    · rw [if_neg (fun hc => hc.2 h)]
    · rw [if_neg (fun hc => hc.1 h)]
  · intro q hq
    rw [hw] at hq
    by_cases hcond : jsNumberOfString v ≠ .nan ∧ jsTrim v ≠ []
    · rw [if_pos hcond] at hq
      injection hq
    · rw [if_neg hcond] at hq
      cases hq

/-- Witness for the amended C5 at the numeric text `"42"`. -/
theorem C5_writer_coercion_witness :
    ("42".data : Str).head? ≠ some '=' ∧
      ((∃ n, writeCellValue ("42".data) = .num n) ↔
        (jsTrim ("42".data) ≠ [] ∧ jsNumberOfString ("42".data) ≠ .nan)) :=
  ⟨by decide, (C5_writer_coercion ("42".data) (by decide)).1⟩
